import Mathlib

/-!
# NavLink active-state resolution — verification

This file embeds the active-state logic of the blog's `NavLink` component.
The component computes, from the anchor's `href` attribute and the current
URL's `pathname`:

  `const isActive = href === pathname || href === pathname.replace(/\/$/, '');`

The JavaScript regex `/\/$/` (no global flag, no multiline flag) matches a
single `/` at the very end of the input, so `pathname.replace(/\/$/, '')`
removes exactly one trailing `/` character when the string ends in `/` and
leaves the string unchanged otherwise.  Note that it also turns the root
path `"/"` into the empty string `""`.

Strings are modelled as Lean `String` (a sequence of characters); the
operations are expressed through the underlying character list `String.data`.
-/

namespace NavLink

/-- Embeds `pathname.replace(/\/$/, '')`: the regex `/\/$/` matches one `/`
at the end of the input, so the replacement removes the final character
exactly when that character is `/`. -/
def stripTrailingSlash (s : String) : String :=
  if s.data.getLast? = some '/' then String.mk s.data.dropLast else s

/-- Embeds `const isActive = href === pathname || href === pathname.replace(/\/$/, '')`
from the `NavLink` component (`===` on strings is exact string equality). -/
def isActive (href pathname : String) : Bool :=
  href == pathname || href == stripTrailingSlash pathname

/-- The spec's vocabulary for the same computation: `resolveActive(currentPath,
targetHref)` with `currentPath` playing the role of `pathname` and
`targetHref` the role of `href`. -/
def resolveActive (currentPath targetHref : String) : Bool :=
  isActive targetHref currentPath

/-- The trailing-slash normalization exactly as the spec words it for C1:
remove one trailing `/` only when the string ends in `/` AND has length
greater than one, so that the root path `"/"` is never altered. -/
def stripTrailingSlashSpec (s : String) : String :=
  if s.data.getLast? = some '/' ∧ 1 < s.length then String.mk s.data.dropLast else s

/-- The active-state formula as the spec words it for C1, built on
`stripTrailingSlashSpec` (root-protected stripping). -/
def specIsActive (currentPath targetHref : String) : Bool :=
  targetHref == currentPath || targetHref == stripTrailingSlashSpec currentPath

/-- An independent rendering of the amended normalization: remove exactly one
trailing `/` whenever the string ends in `/` (the root `"/"` becomes `""`),
phrased by pattern-matching on the reversed character list. -/
def stripOneTrailing (s : String) : String :=
  if s.data.reverse.head? = some '/' then String.mk s.data.reverse.tail.reverse else s

/-- Starts with `/` — the notion of a well-formed path string used by the
spec when it speaks of valid and malformed paths. -/
def startsWithSlash (s : String) : Bool :=
  s.data.head? = some '/'

/-- Two strings differ only in letter case: they are distinct but their
characters agree pointwise after lower-casing. -/
def differOnlyInCase (a b : String) : Prop :=
  a ≠ b ∧ List.Forall₂ (fun x y : Char => x.toLower = y.toLower) a.data b.data

/-- A string made only of whitespace characters. -/
def whitespaceOnly (w : String) : Prop :=
  ∀ ch ∈ w.data, ch.isWhitespace

/-- Two strings differ only in surrounding whitespace: they are distinct and
one of them is the other with (possibly empty) whitespace padding attached
on the left and right. -/
def differOnlyInSurroundingWhitespace (a b : String) : Prop :=
  a ≠ b ∧ ∃ wl wr : String, whitespaceOnly wl ∧ whitespaceOnly wr ∧
    (a = wl ++ b ++ wr ∨ b = wl ++ a ++ wr)

/-! ## Basic lemmas about the normalization -/

theorem resolveActive_eq_true_iff (c t : String) :
    resolveActive c t = true ↔ t = c ∨ t = stripTrailingSlash c := by
  simp [resolveActive, isActive]

theorem resolveActive_eq_false_iff (c t : String) :
    resolveActive c t = false ↔ t ≠ c ∧ t ≠ stripTrailingSlash c := by
  rw [← Bool.not_eq_true, resolveActive_eq_true_iff]
  tauto

theorem stripTrailingSlash_concat (s : String) :
    stripTrailingSlash (s ++ "/") = s := by
  have hdata : (s ++ "/").data = s.data ++ ['/'] := rfl
  unfold stripTrailingSlash
  rw [hdata, List.getLast?_concat, List.dropLast_concat]
  simp

theorem stripTrailingSlash_cases (s : String) :
    stripTrailingSlash s = s ∨
      (s.data.getLast? = some '/' ∧ stripTrailingSlash s = String.mk s.data.dropLast) := by
  unfold stripTrailingSlash
  by_cases h : s.data.getLast? = some '/'
  · right; exact ⟨h, by rw [if_pos h]⟩
  · left; rw [if_neg h]

theorem length_stripTrailingSlash_ge (s : String) :
    s.length ≤ (stripTrailingSlash s).length + 1 := by
  rcases stripTrailingSlash_cases s with h | ⟨_, h⟩
  · rw [h]; omega
  · rw [h]
    show s.data.length ≤ s.data.dropLast.length + 1
    rw [List.length_dropLast]
    omega

theorem length_stripTrailingSlash_le (s : String) :
    (stripTrailingSlash s).length ≤ s.length := by
  rcases stripTrailingSlash_cases s with h | ⟨_, h⟩
  · rw [h]
  · rw [h]
    show s.data.dropLast.length ≤ s.data.length
    rw [List.length_dropLast]
    omega

theorem length_append_str (a b : String) : (a ++ b).length = a.length + b.length := by
  show (a.data ++ b.data).length = a.data.length + b.data.length
  exact List.length_append a.data b.data

theorem eq_empty_iff_data (s : String) : s = "" ↔ s.data = [] := by
  constructor
  · intro h; rw [h]
  · intro h; cases s; simp_all

theorem length_pos_of_ne_empty (s : String) (h : s ≠ "") : 0 < s.length := by
  rcases Nat.eq_zero_or_pos s.length with h0 | hp
  · exact absurd ((eq_empty_iff_data s).mpr (List.length_eq_zero.mp h0)) h
  · exact hp

theorem reverse_tail_reverse (l : List Char) : l.reverse.tail.reverse = l.dropLast := by
  cases hr : l.reverse with
  | nil =>
    have hl : l = [] := List.reverse_eq_nil_iff.mp hr
    subst hl; rfl
  | cons a r =>
    have hl : l = r.reverse ++ [a] := by
      rw [← List.reverse_reverse l, hr]; simp
    show r.reverse = l.dropLast
    rw [hl, List.dropLast_concat]

theorem stripOneTrailing_eq (s : String) : stripOneTrailing s = stripTrailingSlash s := by
  unfold stripOneTrailing stripTrailingSlash
  simp only [List.head?_reverse, reverse_tail_reverse]

theorem data_stripTrailingSlash (c : String) (hc : c.data.getLast? = some '/') :
    (stripTrailingSlash c).data = c.data.dropLast := by
  unfold stripTrailingSlash
  rw [if_pos hc]

theorem data_inj {s t : String} (h : s.data = t.data) : s = t := by
  cases s; cases t; exact congrArg String.mk h

theorem head?_dropLast_of_two_le (l : List Char) (h : 2 ≤ l.length) :
    l.dropLast.head? = l.head? := by
  cases l with
  | nil => simp at h
  | cons a m =>
    cases m with
    | nil => simp at h
    | cons b m' => rfl

theorem all_eq_of_eq_cons_dropLast :
    ∀ (n : Nat) (l : List Char) (a : Char), l.length ≤ n → l = a :: l.dropLast →
      ∀ x ∈ l, x = a := by
  intro n
  induction n with
  | zero =>
    intro l a hlen heq x hx
    have : l = [] := List.length_eq_zero.mp (Nat.le_zero.mp hlen)
    subst this; cases hx
  | succ n ih =>
    intro l a hlen heq x hx
    cases l with
    | nil => cases hx
    | cons b m =>
      rw [List.cons.injEq] at heq
      obtain ⟨hba, hrest⟩ := heq
      cases m with
      | nil =>
        have hxb : x = b := List.mem_singleton.mp hx
        rw [hxb]; exact hba
      | cons c' m' =>
        have hm' : c' :: m' = a :: (c' :: m').dropLast := by
          rw [← hba]; exact hrest
        have hlen' : (c' :: m').length ≤ n := by
          simp only [List.length_cons] at hlen ⊢; omega
        rcases List.mem_cons.mp hx with hxb | hxm
        · rw [hxb]; exact hba
        · exact ih (c' :: m') a hlen' hm' x hxm

/-! ## Claims -/

/-- C1 counterexample: the claim's formula uses a root-protected
`stripTrailingSlash` (the root `"/"` is never altered), but the code's
`pathname.replace(/\/$/, '')` strips `"/"` down to `""`.  At
`currentPath = "/"`, `targetHref = ""` the code returns `true` while the
claim's formula returns `false`. -/
theorem c1_counterexample :
    resolveActive "/" "" = true ∧ specIsActive "/" "" = false ∧
      resolveActive "/" "" ≠ specIsActive "/" "" := by
  decide

/-- C1 (amended): for every currentPath starting with `/` and every
targetHref, the NavLink active-state resolution returns
`isActive = (targetHref == currentPath) OR (targetHref == strip(currentPath))`,
where `strip` removes exactly one trailing `/` whenever the string ends in
`/` — including the root `"/"`, which becomes the empty string. -/
theorem c1_active_formula :
    ∀ currentPath targetHref : String, startsWithSlash currentPath = true →
      resolveActive currentPath targetHref =
        (targetHref == currentPath || targetHref == stripOneTrailing currentPath) := by
  intro c t _
  rw [stripOneTrailing_eq]
  rfl

/-- C1 witness: the amended formula evaluated at `currentPath = "/blog/"`,
`targetHref = "/blog"`. -/
theorem c1_witness :
    startsWithSlash "/blog/" = true ∧
      resolveActive "/blog/" "/blog" =
        (("/blog" == "/blog/") || ("/blog" == stripOneTrailing "/blog/")) :=
  ⟨by decide, c1_active_formula "/blog/" "/blog" (by decide)⟩

/-- C2 counterexample: the claim says trailing-slash normalization never
reduces `"/"` to `""` and hence `resolveActive("/", "")` is `false`; the
code's normalization does reduce `"/"` to `""`, making
`resolveActive("/", "")` `true`. -/
theorem c2_counterexample :
    stripTrailingSlash "/" = "" ∧ resolveActive "/" "" = true := by
  decide

/-- C2 (amended): `resolveActive("/", "/") == true`; the trailing-slash
normalization reduces the root path `"/"` to the empty string; consequently,
for `currentPath = "/"`, a `targetHref` equal to `""` yields
`isActive = true`. -/
theorem c2_root_behavior :
    resolveActive "/" "/" = true ∧ stripTrailingSlash "/" = "" ∧
      resolveActive "/" "" = true := by
  decide

/-- C6: exact-match reflexivity — for all strings `p`,
`resolveActive(p, p) = true`. -/
theorem c6_refl (p : String) : resolveActive p p = true := by
  simp [resolveActive, isActive]

/-- C7: the four concrete scenarios — `resolveActive("/", "/") = true`,
`resolveActive("/blog/", "/blog") = true`,
`resolveActive("/blog/my-post", "/blog") = false`,
`resolveActive("/about", "/about") = true`. -/
theorem c7_scenarios :
    resolveActive "/" "/" = true ∧
      resolveActive "/blog/" "/blog" = true ∧
      resolveActive "/blog/my-post" "/blog" = false ∧
      resolveActive "/about" "/about" = true := by
  decide

/-- C8: the resolution is a deterministic function of exactly its two string
inputs — two invocations with the same `currentPath` and `targetHref` return
the same boolean (no other input exists, and the embedding is a pure
function, so no state is read or modified). -/
theorem c8_deterministic :
    ∀ c₁ t₁ c₂ t₂ : String, c₁ = c₂ → t₁ = t₂ →
      resolveActive c₁ t₁ = resolveActive c₂ t₂ := by
  intro c₁ t₁ c₂ t₂ hc ht
  rw [hc, ht]

/-- C8 witness: determinism evaluated at `currentPath = "/about"`,
`targetHref = "/about"`. -/
theorem c8_witness :
    resolveActive "/about" "/about" = resolveActive "/about" "/about" :=
  c8_deterministic "/about" "/about" "/about" "/about" rfl rfl

/-- C4: for every string `p` with length > 1,
`resolveActive(p ++ "/", p) = true`, and the normalization is asymmetric:
only the currentPath side is stripped, so `resolveActive(p, p ++ "/")` is
`false`. -/
theorem c4_asymmetry (p : String) (_hp : 1 < p.length) :
    resolveActive (p ++ "/") p = true ∧ resolveActive p (p ++ "/") = false := by
  have hs : ("/" : String).length = 1 := rfl
  constructor
  · rw [resolveActive_eq_true_iff]
    right
    exact (stripTrailingSlash_concat p).symm
  · rw [resolveActive_eq_false_iff]
    have hlen : (p ++ "/").length = p.length + 1 := by rw [length_append_str, hs]
    have hstrip := length_stripTrailingSlash_le p
    constructor
    · intro he
      have := congrArg String.length he
      omega
    · intro he
      have := congrArg String.length he
      omega

/-- C4 witness: the asymmetry evaluated at `p = "/blog"`. -/
theorem c4_witness :
    1 < ("/blog" : String).length ∧
      resolveActive ("/blog" ++ "/") "/blog" = true ∧
      resolveActive "/blog" ("/blog" ++ "/") = false :=
  ⟨by decide, c4_asymmetry "/blog" (by decide)⟩

/-- C5: matching is exact, never prefix-based — a currentPath that strictly
extends the targetHref with a sub-path segment yields `false`; concretely,
`"/blog"` matches `"/blog/"` but not `"/blog/post-1"`. -/
theorem c5_no_prefix_matching :
    (∀ t s : String, s ≠ "" →
        resolveActive (t ++ "/" ++ s) t = false) ∧
      resolveActive "/blog/" "/blog" = true ∧
      resolveActive "/blog/post-1" "/blog" = false := by
  refine ⟨?_, by decide, by decide⟩
  intro t s hs
  rw [resolveActive_eq_false_iff]
  have hslen : 0 < s.length := length_pos_of_ne_empty s hs
  have hone : ("/" : String).length = 1 := rfl
  have hlen : (t ++ "/" ++ s).length = t.length + 1 + s.length := by
    rw [length_append_str, length_append_str, hone]
  have hge := length_stripTrailingSlash_ge (t ++ "/" ++ s)
  constructor
  · intro he
    have := congrArg String.length he
    omega
  · intro he
    have := congrArg String.length he
    omega

/-- C5 witness: the universal part evaluated at `t = "/blog"`,
`s = "post-1"`. -/
theorem c5_witness :
    ("post-1" : String) ≠ "" ∧
      resolveActive ("/blog" ++ "/" ++ "post-1") "/blog" = false :=
  ⟨by decide, c5_no_prefix_matching.1 "/blog" "post-1" (by decide)⟩

/-- C9: the normalization removes exactly one trailing slash per invocation —
for a currentPath ending in two or more `/` characters exactly one `/` is
removed, so `resolveActive("/blog//", "/blog") = false` while
`resolveActive("/blog//", "/blog/") = true`. -/
theorem c9_one_slash_only :
    (∀ s : String, stripTrailingSlash (s ++ "//") = s ++ "/") ∧
      resolveActive "/blog//" "/blog" = false ∧
      resolveActive "/blog//" "/blog/" = true := by
  refine ⟨?_, by decide, by decide⟩
  intro s
  have hassoc : s ++ "//" = (s ++ "/") ++ "/" := by
    cases s with
    | mk d =>
      show String.mk (d ++ ('/' :: '/' :: [])) = String.mk ((d ++ ['/']) ++ ['/'])
      rw [List.append_assoc]
      rfl
  rw [hassoc, stripTrailingSlash_concat]

/-- C3 counterexample: the claim says every malformed or empty targetHref
paired with any valid currentPath yields `false`; but the empty targetHref
paired with the valid currentPath `"/"` yields `true` (the stripped root is
the empty string). -/
theorem c3_counterexample :
    startsWithSlash "/" = true ∧ resolveActive "/" "" = true := by
  decide

/-- C3 (amended): the resolution is total — every pair of string inputs
yields a boolean — and for every valid currentPath (starting with `/`) other
than the root `"/"`, any targetHref that is not a well-formed path (does not
start with `/`, including the empty string) yields `isActive = false`; for
the root currentPath `"/"`, the empty targetHref yields `true`. -/
theorem c3_total_and_malformed :
    (∀ c t : String, resolveActive c t = true ∨ resolveActive c t = false) ∧
      (∀ c t : String, startsWithSlash c = true → c ≠ "/" →
        startsWithSlash t = false → resolveActive c t = false) ∧
      resolveActive "/" "" = true := by
  refine ⟨fun c t => ?_, fun c t hc hroot ht => ?_, by decide⟩
  · cases resolveActive c t
    · right; rfl
    · left; rfl
  · simp only [startsWithSlash, decide_eq_true_eq] at hc
    simp only [startsWithSlash, decide_eq_false_iff_not] at ht
    rw [resolveActive_eq_false_iff]
    constructor
    · intro he
      exact ht (by rw [he]; exact hc)
    · intro he
      rcases stripTrailingSlash_cases c with hcase | ⟨hlast, hcase⟩
      · rw [hcase] at he
        exact ht (by rw [he]; exact hc)
      · have hdata : t.data = c.data.dropLast := by rw [he, hcase]
        have hne : c.data ≠ [] := by
          intro h0; rw [h0] at hlast; simp at hlast
        have hpos : 0 < c.data.length := List.length_pos.mpr hne
        have hlen2 : 2 ≤ c.data.length := by
          by_contra hlt
          push_neg at hlt
          have h1 : c.data.length = 1 := by omega
          obtain ⟨x, hx⟩ := List.length_eq_one.mp h1
          rw [hx] at hc
          simp at hc
          apply hroot
          apply data_inj
          rw [hx, hc]
        apply ht
        rw [hdata, head?_dropLast_of_two_le c.data hlen2]
        exact hc

/-- C3 witness: the malformed-target part evaluated at
`currentPath = "/about"`, `targetHref = "blog"`. -/
theorem c3_witness :
    (startsWithSlash "/about" = true ∧ "/about" ≠ ("/" : String) ∧
        startsWithSlash "blog" = false) ∧
      resolveActive "/about" "blog" = false :=
  ⟨by decide, c3_total_and_malformed.2.1 "/about" "blog" (by decide) (by decide) (by decide)⟩

/-- C10: comparison is exact, case-sensitive string equality with no
trimming, case folding, or percent-decoding — any pair of strings differing
only in letter case, or only in surrounding whitespace, resolves to `false`;
concretely `resolveActive("/Blog", "/blog") = false`. -/
theorem c10_exact_comparison :
    (∀ c t : String, differOnlyInCase c t → resolveActive c t = false) ∧
      (∀ c t : String, differOnlyInSurroundingWhitespace c t →
        resolveActive c t = false) ∧
      resolveActive "/Blog" "/blog" = false := by
  refine ⟨fun c t h => ?_, fun c t h => ?_, by decide⟩
  · obtain ⟨hne, hf2⟩ := h
    rw [resolveActive_eq_false_iff]
    have hlen : c.data.length = t.data.length := hf2.length_eq
    refine ⟨fun he => hne he.symm, fun he => ?_⟩
    rcases stripTrailingSlash_cases c with hcase | ⟨hlast, hcase⟩
    · rw [hcase] at he
      exact hne he.symm
    · have hdata : t.data = c.data.dropLast := by rw [he, hcase]
      have hcne : c.data ≠ [] := by
        intro h0; rw [h0] at hlast; simp at hlast
      have hpos : 0 < c.data.length := List.length_pos.mpr hcne
      have hdrop : t.data.length = c.data.length - 1 := by
        rw [hdata, List.length_dropLast]
      omega
  · obtain ⟨hne, wl, wr, hwl, hwr, hAB⟩ := h
    rw [resolveActive_eq_false_iff]
    rcases hAB with hA | hB
    · refine ⟨fun he => hne he.symm, fun he => ?_⟩
      rcases stripTrailingSlash_cases c with hcase | ⟨hlast, hcase⟩
      · rw [hcase] at he
        exact hne he.symm
      · have hdata : t.data = c.data.dropLast := by rw [he, hcase]
        have hcdata : c.data = wl.data ++ t.data ++ wr.data := by rw [hA]; rfl
        by_cases hwr0 : wr.data = []
        · have hcd2 : c.data = wl.data ++ t.data := by
            rw [hcdata, hwr0, List.append_nil]
          have hcne : c.data ≠ [] := by
            intro h0; rw [h0] at hlast; simp at hlast
          have hpos : 0 < c.data.length := List.length_pos.mpr hcne
          have hdrop : t.data.length = c.data.length - 1 := by
            rw [hdata, List.length_dropLast]
          have hsplit : c.data.length = wl.data.length + t.data.length := by
            rw [hcd2, List.length_append]
          have hlenl : wl.data.length = 1 := by omega
          obtain ⟨a, ha⟩ := List.length_eq_one.mp hlenl
          have haw : a.isWhitespace := hwl a (by rw [ha]; exact List.mem_singleton_self a)
          have hc_cons : c.data = a :: t.data := by rw [hcd2, ha]; rfl
          have ht_eq : t.data = (a :: t.data).dropLast := by
            rw [← hc_cons]; exact hdata
          cases htd : t.data with
          | nil =>
            rw [htd] at hc_cons
            rw [hc_cons] at hlast
            simp at hlast
            rw [hlast] at haw
            exact absurd haw (by decide)
          | cons b m =>
            rw [htd] at ht_eq hc_cons
            have ht_eq2 : b :: m = a :: (b :: m).dropLast := ht_eq
            have hall := all_eq_of_eq_cons_dropLast (b :: m).length (b :: m) a
              (Nat.le_refl _) ht_eq2
            rw [hc_cons] at hlast
            have hstep : (a :: b :: m).getLast? = (b :: m).getLast? :=
              List.getLast?_append_of_ne_nil [a] (by simp)
            rw [hstep] at hlast
            have hmem : '/' ∈ b :: m := List.mem_of_mem_getLast? hlast
            have hsa : '/' = a := hall '/' hmem
            rw [← hsa] at haw
            exact absurd haw (by decide)
        · have hx : c.data.getLast? = wr.data.getLast? := by
            rw [hcdata]
            exact List.getLast?_append_of_ne_nil (wl.data ++ t.data) hwr0
          rw [hx] at hlast
          have hmem : '/' ∈ wr.data := List.mem_of_mem_getLast? hlast
          exact absurd (hwr '/' hmem) (by decide)
    · refine ⟨fun he => hne he.symm, fun he => ?_⟩
      have hlt : t.length = wl.length + c.length + wr.length := by
        rw [hB, length_append_str, length_append_str]
      have hwlwr : 0 < wl.length + wr.length := by
        by_contra h0
        push_neg at h0
        have hwld : wl.length = wl.data.length := rfl
        have hwrd : wr.length = wr.data.length := rfl
        have hwl0 : wl = "" := by
          rw [eq_empty_iff_data]
          exact List.length_eq_zero.mp (by omega)
        have hwr0 : wr = "" := by
          rw [eq_empty_iff_data]
          exact List.length_eq_zero.mp (by omega)
        apply hne
        apply data_inj
        rw [hB, hwl0, hwr0]
        show c.data = ([] : List Char) ++ c.data ++ []
        simp
      have hsc := length_stripTrailingSlash_le c
      have := congrArg String.length he
      omega

/-- C10 witness: the case part evaluated at `("/Blog", "/blog")` and the
whitespace part at `("/blog ", "/blog")`. -/
theorem c10_witness :
    (differOnlyInCase "/Blog" "/blog" ∧ resolveActive "/Blog" "/blog" = false) ∧
      (differOnlyInSurroundingWhitespace "/blog " "/blog" ∧
        resolveActive "/blog " "/blog" = false) := by
  have hc : differOnlyInCase "/Blog" "/blog" := ⟨by decide, by decide⟩
  have hwsl : whitespaceOnly "" := by
    intro ch hch
    exact absurd hch (List.not_mem_nil ch)
  have hwsr : whitespaceOnly " " := by
    intro ch hch
    have h := List.mem_singleton.mp hch
    rw [h]
    decide
  have hw : differOnlyInSurroundingWhitespace "/blog " "/blog" :=
    ⟨by decide, "", " ", hwsl, hwsr, Or.inl (by decide)⟩
  exact ⟨⟨hc, c10_exact_comparison.1 "/Blog" "/blog" hc⟩,
    ⟨hw, c10_exact_comparison.2.1 "/blog " "/blog" hw⟩⟩

end NavLink
